import Mathlib

/-!
Shallow embedding of the io_uring_scanner ring-driven scan engine.

The embedding translates `src/ring.rs` (slot pool and buffer pool),
`src/scan.rs` (admission gate `can_push`), `src/scan/tcp_connect.rs`
(the TCP-connect capability) and the allocator construction in
`src/main.rs`.

Modelling conventions:
- Rust `Vec<T>` used as a stack (push/pop at the tail) is modelled as a
  Lean `List` whose HEAD is the stack top; a Rust `(a..b).collect()`
  free-list therefore becomes the reversed range, so that the first
  `pop` yields `b - 1` exactly as in the source (see the assertion in
  `test_ring_allocator_alloc_entry`).
- A Rust panic (`unwrap`, `expect`, out-of-bounds indexing,
  `unreachable!`) is modelled by returning `none`; fallible operations
  return `Option`.
- Byte buffers are `List Nat`; machine addresses (`Rc<SockaddrIn>`) are
  abstracted as `Nat` values compared by equality, which matches the
  by-value equality of `SockaddrIn` used by the `HashSet`.
- `iovec` is modelled by its registered length (`iov_len`); the base
  pointer always designates the storage of the carried index, which the
  model keeps as the index itself.
- `entries.capacity()` in `allocated_entry_count` is modelled as the
  length of the entries list: `vec![None; ring_size]` allocates exactly
  `ring_size` and the vector is only ever written in place.
-/

namespace IoUringScanner

/-- `BufferDirection` from `src/ring.rs`. -/
inductive BufferDirection where
  | RX
  | TX
deriving DecidableEq, Repr

/-- `BufferInfo` from `src/ring.rs`. -/
structure BufferInfo where
  idx : Nat
  direction : BufferDirection
deriving DecidableEq, Repr

/-- `EntryInfo` from `src/ring.rs`.  The `start` field is the one
`src/scan/tcp_connect.rs` initialises with `Instant::now()` and reads
for the delay log line; it is abstracted as a `Nat` timestamp.  (The
struct declaration in `ring.rs` omits it, but `tcp_connect.rs` both
constructs and reads it, so the compiled struct must carry it.) -/
structure EntryInfo where
  ip : Nat
  step : Nat
  buf : Option BufferInfo
  fd : Int
  start : Nat
deriving DecidableEq, Repr

/-- `Buffer` from `src/ring.rs`: the allocated index together with the
length that the returned `iovec` carries. -/
structure Buffer where
  idx : Nat
  iov_len : Nat
deriving DecidableEq, Repr

/-- `RingAllocator` from `src/ring.rs`. -/
structure RingAllocator where
  buffers : List (List Nat)
  rx_buf_size : Nat
  tx_buf_size : Option Nat
  entries : List (Option EntryInfo)
  free_entry_idx : List Nat
  free_rx_buf_idx : List Nat
  free_tx_buf_idx : List Nat
deriving DecidableEq, Repr

/-- `RingAllocator::new` from `src/ring.rs`.  Returns the allocator
together with the list of `iov_len`s registered with the kernel by the
single `register_buffers` call (registration happens exactly once, at
construction).  The `else` branch mapping to `0` corresponds to the
`unreachable!()` arm: when `tx_buf_size` is `None` there is no index
`i ≥ ring_size` in `buffers`. -/
def RingAllocator.new (ring_size rx_buf_size : Nat) (tx_buf_size : Option Nat) :
    RingAllocator × List Nat :=
  let buffers : List (List Nat) :=
    List.replicate ring_size (List.replicate rx_buf_size 0) ++
      (match tx_buf_size with
       | some s => List.replicate ring_size (List.replicate s 0)
       | none => [])
  let iovs : List Nat :=
    (List.range buffers.length).map (fun i =>
      if i < ring_size then rx_buf_size
      else match tx_buf_size with
           | some s => s
           | none => 0)
  (⟨buffers, rx_buf_size, tx_buf_size,
    List.replicate ring_size none,
    (List.range ring_size).reverse,
    (List.range ring_size).reverse,
    ((List.range ring_size).map (fun i => i + ring_size)).reverse⟩,
   iovs)

/-- `RingAllocator::get_entry` from `src/ring.rs` (out-of-range
indexing panics in the source; here it yields `none` like an
unallocated slot, which no claim distinguishes). -/
def RingAllocator.get_entry (a : RingAllocator) (idx : Nat) : Option EntryInfo :=
  a.entries.getD idx none

/-- `RingAllocator::has_free_entry_count` from `src/ring.rs`. -/
def RingAllocator.has_free_entry_count (a : RingAllocator) (count : Nat) : Bool :=
  count ≤ a.free_entry_idx.length

/-- `RingAllocator::allocated_entry_count` from `src/ring.rs`. -/
def RingAllocator.allocated_entry_count (a : RingAllocator) : Nat :=
  a.entries.length - a.free_entry_idx.length

/-- `RingAllocator::free_buf` from `src/ring.rs`. -/
def RingAllocator.free_buf (a : RingAllocator) (direction : BufferDirection)
    (idx : Nat) : RingAllocator :=
  match direction with
  | BufferDirection.RX => { a with free_rx_buf_idx := idx :: a.free_rx_buf_idx }
  | BufferDirection.TX => { a with free_tx_buf_idx := idx :: a.free_tx_buf_idx }

/-- `RingAllocator::free_entry` from `src/ring.rs`.  `none` models the
panic on an out-of-range index or on `.unwrap()` of an unallocated
entry. -/
def RingAllocator.free_entry (a : RingAllocator) (idx : Nat) : Option RingAllocator :=
  match a.entries.get? idx with
  | none => none
  | some none => none
  | some (some info) =>
    let a1 :=
      match info.buf with
      | some b => a.free_buf b.direction b.idx
      | none => a
    some { a1 with
           free_entry_idx := idx :: a1.free_entry_idx,
           entries := a1.entries.set idx none }

/-- `RingAllocator::alloc_entry` from `src/ring.rs`: pops the top of
the free-list, stores `info` there, and returns the index. -/
def RingAllocator.alloc_entry (a : RingAllocator) (info : EntryInfo) :
    Option (Nat × RingAllocator) :=
  match a.free_entry_idx with
  | [] => none
  | idx :: rest =>
    some (idx, { a with
                 free_entry_idx := rest,
                 entries := a.entries.set idx (some info) })

/-- `RingAllocator::get_buf` from `src/ring.rs`. -/
def RingAllocator.get_buf (a : RingAllocator) (idx : Nat) : List Nat :=
  a.buffers.getD idx []

/-- The free-list a `BufferDirection` selects, as in the two `match
direction` expressions of `src/ring.rs`. -/
def RingAllocator.dir_free_list (a : RingAllocator) :
    BufferDirection → List Nat
  | BufferDirection.RX => a.free_rx_buf_idx
  | BufferDirection.TX => a.free_tx_buf_idx

/-- The buffer size the source declares for a direction:
`rx_buf_size` for RX, `tx_buf_size` (an `Option`) for TX. -/
def RingAllocator.declared_buf_size (a : RingAllocator) :
    BufferDirection → Option Nat
  | BufferDirection.RX => some a.rx_buf_size
  | BufferDirection.TX => a.tx_buf_size

/-- `RingAllocator::alloc_buf` from `src/ring.rs`.  `none` models the
three possible panics, in order: `.expect("No free buffers")` on an
empty free-list, the out-of-bounds indexing `self.buffers[idx]` when
the popped index has no backing storage, and
`.expect("TX buffer size was not set")`; finally the
`copy_from_slice` into `self.buffers[idx][..init_val.len()]` panics
when `init_val` is longer than the buffer. -/
def RingAllocator.alloc_buf (a : RingAllocator) (direction : BufferDirection)
    (init_val : Option (List Nat)) : Option (Buffer × RingAllocator) :=
  match a.dir_free_list direction with
  | [] => none
  | idx :: rest =>
    if idx < a.buffers.length then
      match direction, a.tx_buf_size with
      | BufferDirection.TX, none => none
      | _, _ =>
        let iov_len :=
          match direction with
          | BufferDirection.RX => a.rx_buf_size
          | BufferDirection.TX => a.tx_buf_size.getD 0
        let a1 :=
          match direction with
          | BufferDirection.RX => { a with free_rx_buf_idx := rest }
          | BufferDirection.TX => { a with free_tx_buf_idx := rest }
        match init_val with
        | none => some (⟨idx, iov_len⟩, a1)
        | some v =>
          if v.length ≤ (a.buffers.getD idx []).length then
            some (⟨idx, iov_len⟩,
              { a1 with
                buffers := a1.buffers.set idx
                  (v ++ (a.buffers.getD idx []).drop v.length) })
          else none
    else none

/-- One slot-pool operation, for stating invariants over operation
sequences. -/
inductive RingOp where
  | alloc (info : EntryInfo)
  | free (idx : Nat)
deriving DecidableEq, Repr

/-- Apply one slot-pool operation; `none` models a panic. -/
def RingAllocator.applyOp (a : RingAllocator) : RingOp → Option RingAllocator
  | RingOp.alloc info => (a.alloc_entry info).map (fun p => p.2)
  | RingOp.free idx => a.free_entry idx

/-- Run a sequence of slot-pool operations; `none` if any panics. -/
def RingAllocator.runOps (a : RingAllocator) : List RingOp → Option RingAllocator
  | [] => some a
  | op :: ops =>
    match a.applyOp op with
    | none => none
    | some a1 => a1.runOps ops

/-- The state of an io_uring submission queue that `can_push` and
`push_multiple` inspect: its fixed capacity and its current length. -/
structure SubmissionQueueState where
  capacity : Nat
  len : Nat
deriving DecidableEq, Repr

/-- The part of the `Scan` trait that `can_push` consumes: the
capability's constant `ops_per_ip`. -/
structure ScanOpsSig where
  ops_per_ip : Nat
deriving DecidableEq, Repr

/-- `can_push` from `src/scan.rs`: enough free slots in the pool and
enough room in the submission queue. -/
def can_push (sq : SubmissionQueueState) (scan : ScanOpsSig)
    (allocator : RingAllocator) : Bool :=
  allocator.has_free_entry_count scan.ops_per_ip &&
    decide (scan.ops_per_ip ≤ sq.capacity - sq.len)

/-- `Timeouts` from `src/scan.rs` (each `Timespec` abstracted to its
second count). -/
structure Timeouts where
  connect : Nat
  read : Nat
  write : Nat
deriving DecidableEq, Repr

/-- `EntryStep` from `src/scan/tcp_connect.rs`. -/
inductive EntryStep where
  | Connect
  | ConnectTimeout
  | Close
deriving DecidableEq, Repr

/-- `EntryStep as u8` (the discriminants fixed by the source:
Connect = 0, ConnectTimeout, Close). -/
def EntryStep.toU8 : EntryStep → Nat
  | EntryStep.Connect => 0
  | EntryStep.ConnectTimeout => 1
  | EntryStep.Close => 2

/-- `impl From<u8> for EntryStep` from `src/scan/tcp_connect.rs`;
`none` models the `unreachable!()` panic. -/
def EntryStep.fromU8 : Nat → Option EntryStep
  | 0 => some EntryStep.Connect
  | 1 => some EntryStep.ConnectTimeout
  | 2 => some EntryStep.Close
  | _ => none

/-- `libc::ECANCELED` on Linux. -/
def ECANCELED : Int := 125

/-- `ScanTcpConnect` from `src/scan/tcp_connect.rs`: the dedup set of
hit addresses (`HashSet<Rc<SockaddrIn>>`, modelled as a list with
membership for `contains` and cons for `insert`). -/
structure ScanTcpConnect where
  set : List Nat
deriving DecidableEq, Repr

/-- `ScanTcpConnect::new`. -/
def ScanTcpConnect.new : ScanTcpConnect := ⟨[]⟩

/-- `ScanTcpConnect::ops_per_ip`. -/
def ScanTcpConnect.ops_per_ip : Nat := 3

/-- Observable outcome of one `process_completed_entry` call: the
updated dedup set, the returned boolean, the addresses logged as hits
by `log::info!`, and the fds closed by the explicit
`unistd::close`. -/
structure CompletionOutcome where
  scan : ScanTcpConnect
  finalised : Bool
  hits : List Nat
  closed_fds : List Int
deriving DecidableEq, Repr

/-- `ScanTcpConnect::process_completed_entry` from
`src/scan/tcp_connect.rs`.  `cq_result` is `cq_entry.result()`;
`none` models the `unreachable!()` panic of `EntryStep::from` on a
step value above 2.  On Connect, a hit is logged (address plus the
elapsed time since `info.start`) and the address inserted exactly when
the result is `0` and the address is not already in the set; the
timeout completion is ignored; on Close, a result of `-ECANCELED`
closes the stored fd outside the ring, and only Close returns
`true`. -/
def ScanTcpConnect.process_completed_entry (s : ScanTcpConnect)
    (cq_result : Int) (info : EntryInfo) : Option CompletionOutcome :=
  match EntryStep.fromU8 info.step with
  | none => none
  | some EntryStep.Connect =>
    if cq_result = 0 ∧ info.ip ∉ s.set then
      some ⟨⟨info.ip :: s.set⟩, false, [info.ip], []⟩
    else
      some ⟨s, false, [], []⟩
  | some EntryStep.ConnectTimeout => some ⟨s, false, [], []⟩
  | some EntryStep.Close =>
    if cq_result = -ECANCELED then
      some ⟨s, true, [], [info.fd]⟩
    else
      some ⟨s, true, [], []⟩

/-- One completion-queue entry as the dispatcher sees it. -/
structure Completion where
  result : Int
  info : EntryInfo
deriving DecidableEq, Repr

/-- Dispatch a sequence of completions through
`process_completed_entry`, accumulating the logged hits; `none` if any
dispatch panics. -/
def ScanTcpConnect.run_completions (s : ScanTcpConnect) :
    List Completion → Option (ScanTcpConnect × List Nat)
  | [] => some (s, [])
  | c :: cs =>
    match s.process_completed_entry c.result c.info with
    | none => none
    | some out =>
      match out.scan.run_completions cs with
      | none => none
      | some (s2, hits) => some (s2, out.hits ++ hits)

/-- The kind of a submission-queue entry pushed by
`push_scan_ops`, with the payload each opcode constructor receives in
the source. -/
inductive OpKind where
  | connect (fd : Int) (addr : Nat)
  | link_timeout (ts : Nat)
  | close (fd : Int)
deriving DecidableEq, Repr

/-- A built submission-queue entry: opcode, whether
`squeue::Flags::IO_LINK` was set, and the `user_data` tag. -/
structure SqOp where
  kind : OpKind
  io_link : Bool
  user_data : Nat
deriving DecidableEq, Repr

/-- `ScanTcpConnect::push_scan_ops` from `src/scan/tcp_connect.rs`.
`now` abstracts the three `Instant::now()` calls.  `none` models the
`.unwrap()` panics on slot exhaustion and the
`.expect("Failed to push ops")` panic when `push_multiple` lacks
room.  On success it returns `Ok(ops.len())`, the submission queue
grown by the pushed entries, the allocator after the three
reservations, and the pushed entries themselves. -/
def ScanTcpConnect.push_scan_ops (sckt : Int) (addr : Nat) (now : Nat)
    (sq : SubmissionQueueState) (allocator : RingAllocator) (timeouts : Timeouts) :
    Option (Nat × SubmissionQueueState × RingAllocator × List SqOp) :=
  match allocator.alloc_entry
      ⟨addr, EntryStep.toU8 EntryStep.Connect, none, sckt, now⟩ with
  | none => none
  | some (entry_connect_idx, a1) =>
    let op_connect : SqOp :=
      ⟨OpKind.connect sckt addr, true, entry_connect_idx⟩
    match a1.alloc_entry
        ⟨addr, EntryStep.toU8 EntryStep.ConnectTimeout, none, sckt, now⟩ with
    | none => none
    | some (entry_connect_timeout_idx, a2) =>
      let op_connect_timeout : SqOp :=
        ⟨OpKind.link_timeout timeouts.connect, true, entry_connect_timeout_idx⟩
      match a2.alloc_entry
          ⟨addr, EntryStep.toU8 EntryStep.Close, none, sckt, now⟩ with
      | none => none
      | some (entry_close_idx, a3) =>
        let op_close : SqOp :=
          ⟨OpKind.close sckt, false, entry_close_idx⟩
        let ops := [op_connect, op_connect_timeout, op_close]
        if sq.len + ops.length ≤ sq.capacity then
          some (ops.length, ⟨sq.capacity, sq.len + ops.length⟩, a3, ops)
        else
          none

/-- The `RingAllocator::new` call in `src/main.rs`: the pool size
passed is `cl_opts.ring_size * scan.ops_per_ip()`, with
`cl_opts.max_read_size` as the RX buffer size and the capability's
`max_tx_size()` as the TX size. -/
def mainRingAllocator (ring_size ops_per_ip max_read_size : Nat)
    (max_tx_size : Option Nat) : RingAllocator × List Nat :=
  RingAllocator.new (ring_size * ops_per_ip) max_read_size max_tx_size

/-- The slot-pool well-formedness that a fresh allocator enjoys and
every non-panicking operation preserves: the entries vector keeps its
construction length, the free-list holds pairwise-distinct in-range
indices of unallocated slots, and the free-list length plus the number
of allocated (`Some`) entries is the capacity. -/
def PoolInv (n : Nat) (a : RingAllocator) : Prop :=
  a.entries.length = n ∧
  a.free_entry_idx.Nodup ∧
  (∀ i ∈ a.free_entry_idx, i < n ∧ a.entries.getD i none = none) ∧
  a.free_entry_idx.length + a.entries.countP (fun e => e.isSome) = n

/-- Placeholder allocator used only as the default of `Option.getD`
in concrete evaluations. -/
def wDefault : RingAllocator := ⟨[], 0, none, [], [], [], []⟩

/-- Concrete operation sequence for evaluating the slot-pool
invariant: allocate, free the returned slot, allocate again. -/
def wC1ops : List RingOp :=
  [RingOp.alloc ⟨7, 0, none, 5, 0⟩, RingOp.free 1, RingOp.alloc ⟨8, 1, none, 6, 0⟩]

/-- The allocator reached by `wC1ops` from a fresh 2-slot pool. -/
def wC1a : RingAllocator :=
  (((RingAllocator.new 2 4 none).1).runOps wC1ops).getD wDefault

/-- Concrete result of one successful `push_scan_ops` call. -/
def wC2res : Nat × SubmissionQueueState × RingAllocator × List SqOp :=
  (ScanTcpConnect.push_scan_ops 5 7 0 ⟨8, 0⟩ (RingAllocator.new 3 4 none).1
      ⟨1, 1, 1⟩).getD (0, ⟨0, 0⟩, wDefault, [])

/-- Concrete outcome of dispatching a cancelled Close completion. -/
def wC3out : CompletionOutcome :=
  (ScanTcpConnect.new.process_completed_entry (-ECANCELED)
      ⟨7, 2, none, 9, 0⟩).getD ⟨⟨[]⟩, false, [], []⟩

/-- Concrete outcome of dispatching a successful first-sight Connect
completion. -/
def wC6out : CompletionOutcome :=
  (ScanTcpConnect.new.process_completed_entry 0 ⟨7, 0, none, 9, 0⟩).getD
    ⟨⟨[]⟩, false, [], []⟩

/-- Concrete result of a successful primed buffer allocation. -/
def wC10res : Buffer × RingAllocator :=
  ((RingAllocator.new 1 4 none).1.alloc_buf BufferDirection.RX
      (some [7, 8])).getD (⟨0, 0⟩, wDefault)

theorem list_get?_set_self {α : Type} (l : List α) (i : Nat) (x : α)
    (h : i < l.length) : (l.set i x).get? i = some x := by
  induction l generalizing i with
  | nil => simp at h
  | cons a l ih =>
    cases i with
    | zero => rfl
    | succ i => exact ih i (by simpa using h)

theorem list_getD_set_self {α : Type} (l : List α) (i : Nat) (x d : α)
    (h : i < l.length) : (l.set i x).getD i d = x := by
  induction l generalizing i with
  | nil => simp at h
  | cons a l ih =>
    cases i with
    | zero => rfl
    | succ i => exact ih i (by simpa using h)

theorem list_getD_set_ne {α : Type} (l : List α) (i j : Nat) (x d : α)
    (h : i ≠ j) : (l.set i x).getD j d = l.getD j d := by
  induction l generalizing i j with
  | nil => rfl
  | cons a l ih =>
    cases i with
    | zero =>
      cases j with
      | zero => exact absurd rfl h
      | succ j => rfl
    | succ i =>
      cases j with
      | zero => rfl
      | succ j => exact ih i j (fun he => h (by rw [he]))

theorem list_get?_some_lt {α : Type} (l : List α) (i : Nat) (x : α)
    (h : l.get? i = some x) : i < l.length := by
  induction l generalizing i with
  | nil => simp at h
  | cons a l ih =>
    cases i with
    | zero => simp
    | succ i => exact Nat.succ_lt_succ (ih i h)

theorem list_getD_of_get? {α : Type} (l : List α) (i : Nat) (x d : α)
    (h : l.get? i = some x) : l.getD i d = x := by
  induction l generalizing i with
  | nil => simp at h
  | cons a l ih =>
    cases i with
    | zero => simpa using h
    | succ i => exact ih i h

theorem list_getD_replicate {α : Type} (n i : Nat) (c : α) :
    (List.replicate n c).getD i c = c := by
  induction n generalizing i with
  | zero => rfl
  | succ n ih =>
    cases i with
    | zero => rfl
    | succ i => exact ih i

theorem list_countP_set (l : List (Option EntryInfo)) (i : Nat)
    (x : Option EntryInfo) (h : i < l.length) :
    (l.set i x).countP (fun e => e.isSome) +
        (if (l.getD i none).isSome then 1 else 0) =
      l.countP (fun e => e.isSome) + (if x.isSome then 1 else 0) := by
  induction l generalizing i with
  | nil => simp at h
  | cons a l ih =>
    cases i with
    | zero =>
      rcases x with _ | v <;> rcases a with _ | w <;>
        simp [List.countP_cons]
    | succ i =>
      have h2 := ih i (by simpa using h)
      rw [show ((a :: l).set (i + 1) x) = a :: l.set i x from rfl,
        List.getD_cons_succ, List.countP_cons, List.countP_cons]
      omega

/-- Claim C4: for every scan capability and every state of the
submission queue and slot pool, `can_push` returns true if and only if
the slot pool has at least `ops_per_ip` free slots and the submission
queue has at least `ops_per_ip` free entries (capacity minus current
length). -/
theorem claim_C4 (sq : SubmissionQueueState) (scan : ScanOpsSig)
    (a : RingAllocator) :
    can_push sq scan a = true ↔
      (scan.ops_per_ip ≤ a.free_entry_idx.length ∧
       scan.ops_per_ip ≤ sq.capacity - sq.len) := by
  simp [can_push, RingAllocator.has_free_entry_count]

/-- Claim C7: on a pool whose free-list is non-empty (with its head a
valid slot index), freeing the slot returned by `alloc_entry(info)`
restores the free-list to its previous length, and allocation is LIFO:
the next `alloc_entry` returns the just-freed index. -/
theorem claim_C7 (a : RingAllocator) (info info2 : EntryInfo) (idx : Nat)
    (rest : List Nat)
    (hfree : a.free_entry_idx = idx :: rest)
    (hlt : idx < a.entries.length) :
    ∃ a1 a2 a3,
      a.alloc_entry info = some (idx, a1) ∧
      a1.free_entry idx = some a2 ∧
      a2.free_entry_idx.length = a.free_entry_idx.length ∧
      a2.alloc_entry info2 = some (idx, a3) := by
  have halloc : a.alloc_entry info =
      some (idx, { a with
                   free_entry_idx := rest,
                   entries := a.entries.set idx (some info) }) := by
    rw [RingAllocator.alloc_entry, hfree]
  set A1 : RingAllocator :=
    { a with free_entry_idx := rest, entries := a.entries.set idx (some info) }
    with hA1
  have hget : A1.entries.get? idx = some (some info) :=
    list_get?_set_self a.entries idx (some info) hlt
  set FB : RingAllocator :=
    (match info.buf with
     | some b => A1.free_buf b.direction b.idx
     | none => A1)
    with hFB
  have hFBfree : FB.free_entry_idx = rest := by
    rw [hFB]
    rcases info.buf with _ | ⟨bidx, bdir⟩
    · rfl
    · cases bdir <;> rfl
  have hfreeE : A1.free_entry idx =
      some { FB with
             free_entry_idx := idx :: FB.free_entry_idx,
             entries := FB.entries.set idx none } := by
    unfold RingAllocator.free_entry
    rw [hget]
  refine ⟨A1,
    { FB with
      free_entry_idx := idx :: FB.free_entry_idx,
      entries := FB.entries.set idx none },
    { FB with
      free_entry_idx := FB.free_entry_idx,
      entries := (FB.entries.set idx none).set idx (some info2) },
    halloc, hfreeE, ?_, ?_⟩
  · show (idx :: FB.free_entry_idx).length = a.free_entry_idx.length
    rw [hFBfree, hfree]
  · rfl

/-- Claim C5 (code evaluation at the failing input): constructing a
`RingAllocator` with `ring_size = 8` and `tx_buf_size = None`
allocates no TX storage (all 8 buffers are RX), yet the TX free-list
is not empty — it holds the eight dangling indices 8..15, contradicting
the specified empty send pool. -/
theorem claim_C5_code_eval :
    (RingAllocator.new 8 4 none).1.buffers.length = 8 ∧
    (RingAllocator.new 8 4 none).1.free_tx_buf_idx =
      [15, 14, 13, 12, 11, 10, 9, 8] ∧
    ¬ (RingAllocator.new 8 4 none).1.free_tx_buf_idx = [] := by decide

/-- Claim C8 counterexample: with CLI ring size `R = 1` and the
TCP-connect capability (`ops_per_ip = 3`, no send buffers), the
allocator built by `main` pre-allocates 3 receive buffers, not `R = 1`
as the claim states. -/
theorem claim_C8_counterexample :
    (mainRingAllocator 1 ScanTcpConnect.ops_per_ip 4 none).1.buffers.length = 3 ∧
    ¬ (mainRingAllocator 1 ScanTcpConnect.ops_per_ip 4 none).1.buffers.length
        = 1 := by decide

/-- Claim C9 counterexample: on the allocator constructed with
`ring_size = 1` and `tx_buf_size = None`, the TX free-list is
non-empty (it holds the dangling index 1), yet `alloc_buf` for TX
still panics — refuting the claimed "panics iff the free-list is
empty". -/
theorem claim_C9_counterexample :
    (RingAllocator.new 1 8 none).1.alloc_buf BufferDirection.TX none = none ∧
    ¬ (RingAllocator.new 1 8 none).1.dir_free_list BufferDirection.TX = [] := by
  decide

/-- Claim C2: every `push_scan_ops` call of the TCP-connect capability
that succeeds pushes exactly `ops_per_ip = 3` operations (Connect,
LinkTimeout, Close in that order), returns the count 3, reserves
exactly 3 slots from the pool, grows the submission queue by 3, and
sets the IO_LINK flag on every pushed operation except the last
(Close). -/
theorem claim_C2 (sckt : Int) (addr now : Nat) (sq : SubmissionQueueState)
    (a : RingAllocator) (t : Timeouts) (n : Nat) (sq2 : SubmissionQueueState)
    (a2 : RingAllocator) (ops : List SqOp)
    (h : ScanTcpConnect.push_scan_ops sckt addr now sq a t =
      some (n, sq2, a2, ops)) :
    n = ScanTcpConnect.ops_per_ip ∧ n = 3 ∧ ops.length = 3 ∧
    a2.free_entry_idx.length + 3 = a.free_entry_idx.length ∧
    sq2.len = sq.len + 3 ∧
    ops.map (fun o => o.io_link) = [true, true, false] ∧
    ops.map (fun o => o.kind) =
      [OpKind.connect sckt addr, OpKind.link_timeout t.connect,
       OpKind.close sckt] := by
  obtain ⟨bufs, rx, tx, es, free, frx, ftx⟩ := a
  rcases free with _ | ⟨i1, _ | ⟨i2, _ | ⟨i3, rest⟩⟩⟩ <;>
    simp only [ScanTcpConnect.push_scan_ops, RingAllocator.alloc_entry] at h
  · exact absurd h (by simp)
  · exact absurd h (by simp)
  · exact absurd h (by simp)
  · rw [show ([(⟨OpKind.connect sckt addr, true, i1⟩ : SqOp),
        ⟨OpKind.link_timeout t.connect, true, i2⟩,
        ⟨OpKind.close sckt, false, i3⟩] : List SqOp).length = 3 from rfl] at h
    split at h
    · rw [Option.some_inj] at h
      simp only [Prod.mk.injEq] at h
      obtain ⟨hn, hsq, ha, hops⟩ := h
      subst hn hsq ha hops
      refine ⟨rfl, rfl, rfl, ?_, rfl, rfl, rfl⟩
      simp
    · exact absurd h (by simp)

/-- Claim C3: for every completion dispatched through the TCP-connect
`process_completed_entry`, the call returns true if and only if the
slot's step is Close (step 2) — Connect and ConnectTimeout return
false — and when the step is Close and the completion result equals
`-ECANCELED`, the slot's stored fd is explicitly closed outside the
ring. -/
theorem claim_C3 (s : ScanTcpConnect) (res : Int) (info : EntryInfo)
    (out : CompletionOutcome)
    (h : s.process_completed_entry res info = some out) :
    (out.finalised = true ↔ info.step = 2) ∧
    (info.step = 2 → res = -ECANCELED → out.closed_fds = [info.fd]) := by
  obtain ⟨ip, step, buf, fd, start⟩ := info
  rcases step with _ | _ | _ | k <;>
    simp only [ScanTcpConnect.process_completed_entry, EntryStep.fromU8] at h
  · split at h <;>
      · rw [Option.some_inj] at h
        subst h
        simp
  · rw [Option.some_inj] at h
    subst h
    simp
  · split at h <;>
      · rw [Option.some_inj] at h
        subst h
        simp_all
  · exact absurd h (by simp)

/-- Concrete instance of claim C7 on a fresh 2-slot pool. -/
theorem claim_C7_witness :
    ∃ a1 a2 a3,
      (RingAllocator.new 2 4 none).1.alloc_entry ⟨7, 0, none, 5, 0⟩ =
        some (1, a1) ∧
      a1.free_entry 1 = some a2 ∧
      a2.free_entry_idx.length =
        (RingAllocator.new 2 4 none).1.free_entry_idx.length ∧
      a2.alloc_entry ⟨8, 1, none, 6, 0⟩ = some (1, a3) :=
  claim_C7 (RingAllocator.new 2 4 none).1 ⟨7, 0, none, 5, 0⟩
    ⟨8, 1, none, 6, 0⟩ 1 [0] (by decide) (by decide)

/-- Concrete instance of claim C2 on a fresh 3-slot pool with room for
8 submission entries. -/
theorem claim_C2_witness :
    wC2res.1 = ScanTcpConnect.ops_per_ip ∧ wC2res.1 = 3 ∧
    wC2res.2.2.2.length = 3 ∧
    wC2res.2.2.1.free_entry_idx.length + 3 =
      (RingAllocator.new 3 4 none).1.free_entry_idx.length ∧
    wC2res.2.1.len = (⟨8, 0⟩ : SubmissionQueueState).len + 3 ∧
    wC2res.2.2.2.map (fun o => o.io_link) = [true, true, false] ∧
    wC2res.2.2.2.map (fun o => o.kind) =
      [OpKind.connect 5 7, OpKind.link_timeout (⟨1, 1, 1⟩ : Timeouts).connect,
       OpKind.close 5] :=
  claim_C2 5 7 0 ⟨8, 0⟩ (RingAllocator.new 3 4 none).1 ⟨1, 1, 1⟩ wC2res.1
    wC2res.2.1 wC2res.2.2.1 wC2res.2.2.2 (by decide)

/-- Concrete instance of claim C3 on a cancelled Close completion. -/
theorem claim_C3_witness :
    (wC3out.finalised = true ↔ (⟨7, 2, none, 9, 0⟩ : EntryInfo).step = 2) ∧
    ((⟨7, 2, none, 9, 0⟩ : EntryInfo).step = 2 → -ECANCELED = -ECANCELED →
      wC3out.closed_fds = [(⟨7, 2, none, 9, 0⟩ : EntryInfo).fd]) :=
  claim_C3 ScanTcpConnect.new (-ECANCELED) ⟨7, 2, none, 9, 0⟩ wC3out
    (by decide)

/-- Claim C9, amended: on a pool state where the requested direction
has a declared buffer size (RX always has one; TX only when
`tx_buf_size` was set) and the direction's free-list indices all lie
within the allocated storage and can hold the supplied `init` bytes,
`alloc_buf` panics if and only if that free-list is empty, and
otherwise returns a handle carrying the popped index and an iovec of
the declared size. -/
theorem claim_C9_amended (a : RingAllocator) (d : BufferDirection)
    (init : Option (List Nat)) (size : Nat)
    (hsize : a.declared_buf_size d = some size)
    (hrange : ∀ i ∈ a.dir_free_list d, i < a.buffers.length)
    (hinit : ∀ v, init = some v → ∀ i ∈ a.dir_free_list d,
        v.length ≤ (a.buffers.getD i []).length) :
    (a.alloc_buf d init = none ↔ a.dir_free_list d = []) ∧
    (∀ idx rest, a.dir_free_list d = idx :: rest →
       ∃ a2, a.alloc_buf d init = some (⟨idx, size⟩, a2)) := by
  rcases hl : a.dir_free_list d with _ | ⟨idx, rest⟩
  · constructor
    · rw [RingAllocator.alloc_buf.eq_def, hl]
      simp
    · intro idx rest hcons
      exact absurd hcons (by simp)
  · have hidx : idx < a.buffers.length := hrange idx (by rw [hl]; simp)
    have hsome : ∃ a2, a.alloc_buf d init = some (⟨idx, size⟩, a2) := by
      cases d with
      | RX =>
        simp only [RingAllocator.declared_buf_size, Option.some_inj] at hsize
        rcases init with _ | v
        · exact ⟨_, by
            rw [RingAllocator.alloc_buf.eq_def, hl]
            dsimp only
            rw [if_pos hidx, hsize]⟩
        · have hfit : v.length ≤ (a.buffers.getD idx []).length :=
            hinit v rfl idx (by rw [hl]; simp)
          exact ⟨_, by
            rw [RingAllocator.alloc_buf.eq_def, hl]
            dsimp only
            rw [if_pos hidx, if_pos hfit, hsize]⟩
      | TX =>
        simp only [RingAllocator.declared_buf_size] at hsize
        rcases init with _ | v
        · exact ⟨_, by
            rw [RingAllocator.alloc_buf.eq_def, hl, hsize]
            dsimp only
            rw [if_pos hidx]
            exact rfl⟩
        · have hfit : v.length ≤ (a.buffers.getD idx []).length :=
            hinit v rfl idx (by rw [hl]; simp)
          exact ⟨_, by
            rw [RingAllocator.alloc_buf.eq_def, hl, hsize]
            dsimp only
            rw [if_pos hidx, if_pos hfit]
            exact rfl⟩
    obtain ⟨a2, ha2⟩ := hsome
    constructor
    · rw [ha2]
      simp
    · intro idx2 rest2 hcons
      obtain ⟨he1, he2⟩ := List.cons.inj hcons
      subst he1
      exact ⟨a2, ha2⟩

/-- Concrete instance of the amended claim C9: TX allocation on a pool
constructed with a declared TX size pops the top TX index. -/
theorem claim_C9_amended_witness :
    ((RingAllocator.new 2 4 (some 6)).1.alloc_buf BufferDirection.TX
        (some [9]) = none ↔
      (RingAllocator.new 2 4 (some 6)).1.dir_free_list BufferDirection.TX
        = []) ∧
    (∀ idx rest,
      (RingAllocator.new 2 4 (some 6)).1.dir_free_list BufferDirection.TX
          = idx :: rest →
      ∃ a2, (RingAllocator.new 2 4 (some 6)).1.alloc_buf BufferDirection.TX
          (some [9]) = some (⟨idx, 6⟩, a2)) :=
  claim_C9_amended (RingAllocator.new 2 4 (some 6)).1 BufferDirection.TX
    (some [9]) 6 (by decide) (by decide) (by decide)

/-- Claim C10: a successful `alloc_buf` with `init` supplied leaves
exactly the first `init.len()` bytes of the returned buffer's backing
storage equal to `init`, leaves every byte beyond unchanged, leaves
every other buffer unchanged, and with `init` absent changes no buffer
at all. -/
theorem claim_C10 :
    (∀ (a : RingAllocator) (d : BufferDirection) (v : List Nat)
        (b : Buffer) (a2 : RingAllocator),
        a.alloc_buf d (some v) = some (b, a2) →
        (a2.buffers.getD b.idx []).take v.length = v ∧
        (a2.buffers.getD b.idx []).drop v.length =
          (a.buffers.getD b.idx []).drop v.length ∧
        (∀ j, j ≠ b.idx → a2.buffers.getD j [] = a.buffers.getD j [])) ∧
    (∀ (a : RingAllocator) (d : BufferDirection) (b : Buffer)
        (a2 : RingAllocator),
        a.alloc_buf d none = some (b, a2) → a2.buffers = a.buffers) := by
  constructor
  · intro a d v b a2 h
    rcases hl : a.dir_free_list d with _ | ⟨idx, rest⟩ <;>
      rw [RingAllocator.alloc_buf.eq_def, hl] at h
    · exact absurd h (by simp)
    · have hext : idx < a.buffers.length ∧ b.idx = idx ∧
          a2.buffers =
            a.buffers.set idx (v ++ (a.buffers.getD idx []).drop v.length) := by
        cases d with
        | RX =>
          dsimp only at h
          split at h
          case isTrue hidx =>
            split at h
            case isTrue hfit =>
              rw [Option.some_inj] at h
              simp only [Prod.mk.injEq] at h
              obtain ⟨hb, ha⟩ := h
              subst hb ha
              exact ⟨hidx, rfl, rfl⟩
            case isFalse hfit => exact absurd h (by simp)
          case isFalse hidx => exact absurd h (by simp)
        | TX =>
          rcases htx : a.tx_buf_size with _ | s <;> rw [htx] at h <;> dsimp only at h
          · exact absurd h (by simp)
          · split at h
            case isTrue hidx =>
              split at h
              case isTrue hfit =>
                rw [Option.some_inj] at h
                simp only [Prod.mk.injEq] at h
                obtain ⟨hb, ha⟩ := h
                subst hb ha
                exact ⟨hidx, rfl, rfl⟩
              case isFalse hfit => exact absurd h (by simp)
            case isFalse hidx => exact absurd h (by simp)
      obtain ⟨hidx, hbidx, hbufs⟩ := hext
      rw [hbufs, hbidx]
      refine ⟨?_, ?_, ?_⟩
      · rw [list_getD_set_self _ _ _ _ hidx]
        exact List.take_left v _
      · rw [list_getD_set_self _ _ _ _ hidx]
        exact List.drop_left v _
      · intro j hj
        exact list_getD_set_ne a.buffers idx j _ [] (fun he => hj he.symm)
  · intro a d b a2 h
    rcases hl : a.dir_free_list d with _ | ⟨idx, rest⟩ <;>
      rw [RingAllocator.alloc_buf.eq_def, hl] at h
    · exact absurd h (by simp)
    · cases d with
      | RX =>
        dsimp only at h
        split at h
        case isTrue hidx =>
          rw [Option.some_inj] at h
          simp only [Prod.mk.injEq] at h
          obtain ⟨hb, ha⟩ := h
          subst ha
          rfl
        case isFalse hidx => exact absurd h (by simp)
      | TX =>
        rcases htx : a.tx_buf_size with _ | s <;> rw [htx] at h <;> dsimp only at h
        · exact absurd h (by simp)
        · split at h
          case isTrue hidx =>
            rw [Option.some_inj] at h
            simp only [Prod.mk.injEq] at h
            obtain ⟨hb, ha⟩ := h
            subst ha
            rfl
          case isFalse hidx => exact absurd h (by simp)

/-- Concrete instance of claim C10: priming a fresh 4-byte RX buffer
with two bytes overwrites exactly its head. -/
theorem claim_C10_witness :
    (wC10res.2.buffers.getD wC10res.1.idx []).take ([7, 8] : List Nat).length
        = [7, 8] ∧
    (wC10res.2.buffers.getD wC10res.1.idx []).drop ([7, 8] : List Nat).length
        = ((RingAllocator.new 1 4 none).1.buffers.getD wC10res.1.idx []).drop
            ([7, 8] : List Nat).length ∧
    (∀ j, j ≠ wC10res.1.idx →
      wC10res.2.buffers.getD j [] =
        (RingAllocator.new 1 4 none).1.buffers.getD j []) :=
  claim_C10.1 (RingAllocator.new 1 4 none).1 BufferDirection.RX [7, 8]
    wC10res.1 wC10res.2 (by decide)

theorem range_map_lt (n x y : Nat) :
    (List.range n).map (fun i => if i < n then x else y) =
      List.replicate n x := by
  have hm : ∀ b ∈ (List.range n).map (fun i => if i < n then x else y),
      b = x := by
    intro b hb
    obtain ⟨i, hi, hbi⟩ := List.mem_map.mp hb
    rw [← hbi, if_pos (List.mem_range.mp hi)]
  have h := List.eq_replicate_of_mem hm
  simpa using h

theorem range_map_ite (n m x y : Nat) :
    (List.range (n + m)).map (fun i => if i < n then x else y) =
      List.replicate n x ++ List.replicate m y := by
  rw [List.range_add, List.map_append, List.map_map, range_map_lt]
  congr 1
  have hm : ∀ b ∈ (List.range m).map
      ((fun i => if i < n then x else y) ∘ fun i2 => n + i2), b = y := by
    intro b hb
    obtain ⟨i, hi, hbi⟩ := List.mem_map.mp hb
    rw [← hbi]
    simp only [Function.comp]
    rw [if_neg (by omega)]
  have h := List.eq_replicate_of_mem hm
  simpa using h

/-- Claim C8, amended: for CLI ring size `R` and a capability with
`ops_per_ip = k`, the allocator built by `main` pre-allocates exactly
`R * k` receive buffers of `max_read_size` bytes each (not `R`: `main`
passes `ring_size * ops_per_ip` as the pool size), plus `R * k` send
buffers of the declared size when one is declared and none otherwise,
registers all of them with the kernel in the single construction-time
`register_buffers` call, and free-lists them thereafter. -/
theorem claim_C8_amended (R k rxsz : Nat) (tx : Option Nat) :
    (mainRingAllocator R k rxsz tx).1.buffers.length =
      (match tx with | some _ => 2 * (R * k) | none => R * k) ∧
    (mainRingAllocator R k rxsz tx).1.buffers.take (R * k) =
      List.replicate (R * k) (List.replicate rxsz 0) ∧
    (∀ s, tx = some s →
      (mainRingAllocator R k rxsz tx).1.buffers.drop (R * k) =
        List.replicate (R * k) (List.replicate s 0)) ∧
    (tx = none →
      (mainRingAllocator R k rxsz tx).1.buffers.drop (R * k) = []) ∧
    (mainRingAllocator R k rxsz tx).2 =
      List.replicate (R * k) rxsz ++
        (match tx with | some s => List.replicate (R * k) s | none => []) ∧
    (mainRingAllocator R k rxsz tx).1.free_rx_buf_idx.length = R * k ∧
    (mainRingAllocator R k rxsz tx).1.free_tx_buf_idx.length = R * k := by
  rcases tx with _ | s <;>
    simp only [mainRingAllocator, RingAllocator.new] <;>
    refine ⟨?_, ?_, ?_, ?_, ?_, ?_, ?_⟩
  · simp
  · simp
  · intro s hs
    exact absurd hs (by simp)
  · simp
  · have h := range_map_lt (R * k) rxsz 0
    simpa using h
  · simp
  · simp
  · simp [Nat.two_mul]
  · simp
  · intro s2 hs
    rw [Option.some_inj] at hs
    subst hs
    simp
  · intro hs
    exact absurd hs (by simp)
  · have h := range_map_ite (R * k) (R * k) rxsz s
    have hlen : (List.replicate (R * k) (List.replicate rxsz 0) ++
        List.replicate (R * k) (List.replicate s 0)).length = R * k + R * k := by
      simp
    rw [hlen]
    simpa using h
  · simp
  · simp

/-- Concrete instance of the amended claim C8 at CLI ring size 1,
`ops_per_ip = 2`, and a declared send size. -/
theorem claim_C8_amended_witness :
    (mainRingAllocator 1 2 3 (some 5)).1.buffers.length = 4 ∧
    (mainRingAllocator 1 2 3 (some 5)).1.buffers.drop 2 =
      List.replicate 2 (List.replicate 5 0) ∧
    (mainRingAllocator 1 2 3 (some 5)).2 =
      List.replicate 2 3 ++ List.replicate 2 5 := by
  have h := claim_C8_amended 1 2 3 (some 5)
  exact ⟨h.1, h.2.2.1 5 rfl, h.2.2.2.2.1⟩

theorem process_cases (s : ScanTcpConnect) (res : Int) (info : EntryInfo)
    (out : CompletionOutcome)
    (h : s.process_completed_entry res info = some out) :
    (out.hits = [] ∧ out.scan = s) ∨
    (out.hits = [info.ip] ∧ out.scan.set = info.ip :: s.set ∧
      info.ip ∉ s.set) := by
  obtain ⟨ip, step, buf, fd, start⟩ := info
  rcases step with _ | _ | _ | k <;>
    simp only [ScanTcpConnect.process_completed_entry, EntryStep.fromU8] at h
  · split at h
    case isTrue hc =>
      rw [Option.some_inj] at h
      subst h
      exact Or.inr ⟨rfl, rfl, hc.2⟩
    case isFalse hc =>
      rw [Option.some_inj] at h
      subst h
      exact Or.inl ⟨rfl, rfl⟩
  · rw [Option.some_inj] at h
    subst h
    exact Or.inl ⟨rfl, rfl⟩
  · split at h <;>
      · rw [Option.some_inj] at h
        subst h
        exact Or.inl ⟨rfl, rfl⟩
  · exact absurd h (by simp)

theorem run_completions_count_zero (cs : List Completion) (s : ScanTcpConnect)
    (p : ScanTcpConnect × List Nat) (ip : Nat)
    (h : s.run_completions cs = some p) (hmem : ip ∈ s.set) :
    p.2.count ip = 0 := by
  induction cs generalizing s p with
  | nil =>
    simp only [ScanTcpConnect.run_completions] at h
    rw [Option.some_inj] at h
    subst h
    simp
  | cons c cs ih =>
    simp only [ScanTcpConnect.run_completions] at h
    rcases hp : s.process_completed_entry c.result c.info with _ | out <;>
      rw [hp] at h <;> dsimp only at h
    · exact absurd h (by simp)
    · rcases hr : out.scan.run_completions cs with _ | ⟨s2, hits⟩ <;>
        rw [hr] at h <;> dsimp only at h
      · exact absurd h (by simp)
      · rw [Option.some_inj] at h
        subst h
        rcases process_cases s c.result c.info out hp with
          ⟨hh, hsc⟩ | ⟨hh, hsc, hnot⟩
        · rw [hh]
          simpa using ih out.scan (s2, hits) hr (by rw [hsc]; exact hmem)
        · have hne : ip ≠ c.info.ip := fun he => hnot (he ▸ hmem)
          have htail : hits.count ip = 0 :=
            ih out.scan (s2, hits) hr
              (by rw [hsc]; exact List.mem_cons_of_mem _ hmem)
          rw [hh]
          simpa [List.count_cons, hne] using htail

theorem run_completions_count_le_one (cs : List Completion)
    (s : ScanTcpConnect) (p : ScanTcpConnect × List Nat) (ip : Nat)
    (h : s.run_completions cs = some p) : p.2.count ip ≤ 1 := by
  induction cs generalizing s p with
  | nil =>
    simp only [ScanTcpConnect.run_completions] at h
    rw [Option.some_inj] at h
    subst h
    simp
  | cons c cs ih =>
    simp only [ScanTcpConnect.run_completions] at h
    rcases hp : s.process_completed_entry c.result c.info with _ | out <;>
      rw [hp] at h <;> dsimp only at h
    · exact absurd h (by simp)
    · rcases hr : out.scan.run_completions cs with _ | ⟨s2, hits⟩ <;>
        rw [hr] at h <;> dsimp only at h
      · exact absurd h (by simp)
      · rw [Option.some_inj] at h
        subst h
        rcases process_cases s c.result c.info out hp with
          ⟨hh, hsc⟩ | ⟨hh, hsc, hnot⟩
        · rw [hh]
          simpa using ih out.scan (s2, hits) hr
        · rw [hh]
          by_cases he : ip = c.info.ip
          · have h0 : hits.count c.info.ip = 0 :=
              run_completions_count_zero cs out.scan (s2, hits) c.info.ip hr
                (by rw [hsc]; exact List.mem_cons_self _ _)
            rw [he]
            simp [List.count_cons, h0]
          · have h1 := ih out.scan (s2, hits) hr
            simpa [List.count_cons, he] using h1

/-- Claim C6: for the TCP-connect capability, a Connect-step
completion logs a hit if and only if the result is 0 and the address
is not yet in the dedup set; in that case the address is inserted into
the set, and consequently over any sequence of completions dispatched
from a fresh capability, each distinct address is logged as a hit at
most once. -/
theorem claim_C6 :
    (∀ (s : ScanTcpConnect) (res : Int) (info : EntryInfo)
        (out : CompletionOutcome),
        info.step = 0 →
        s.process_completed_entry res info = some out →
        ((out.hits = [info.ip] ↔ (res = 0 ∧ info.ip ∉ s.set)) ∧
         (¬ (res = 0 ∧ info.ip ∉ s.set) → out.hits = []) ∧
         ((res = 0 ∧ info.ip ∉ s.set) → info.ip ∈ out.scan.set))) ∧
    (∀ (cs : List Completion) (p : ScanTcpConnect × List Nat) (ip : Nat),
        ScanTcpConnect.new.run_completions cs = some p →
        p.2.count ip ≤ 1) := by
  constructor
  · intro s res info out hstep h
    obtain ⟨ip, step, buf, fd, start⟩ := info
    simp only at hstep
    subst hstep
    simp only [ScanTcpConnect.process_completed_entry, EntryStep.fromU8] at h
    split at h
    case isTrue hc =>
      rw [Option.some_inj] at h
      subst h
      exact ⟨⟨fun _ => hc, fun _ => rfl⟩,
        fun hnc => absurd hc hnc,
        fun _ => List.mem_cons_self _ _⟩
    case isFalse hc =>
      rw [Option.some_inj] at h
      subst h
      refine ⟨⟨fun he => absurd he (by simp), fun hcc => absurd hcc hc⟩,
        fun _ => rfl, fun hcc => absurd hcc hc⟩
  · intro cs p ip h
    exact run_completions_count_le_one cs ScanTcpConnect.new p ip h

/-- Concrete instance of claim C6: a successful first-sight Connect
completion for address 7 logs it and inserts it, and dispatching the
same successful completion twice logs the address once. -/
theorem claim_C6_witness :
    ((wC6out.hits = [(⟨7, 0, none, 9, 0⟩ : EntryInfo).ip] ↔
        ((0 : Int) = 0 ∧
          (⟨7, 0, none, 9, 0⟩ : EntryInfo).ip ∉ ScanTcpConnect.new.set)) ∧
     (¬ ((0 : Int) = 0 ∧
          (⟨7, 0, none, 9, 0⟩ : EntryInfo).ip ∉ ScanTcpConnect.new.set) →
        wC6out.hits = []) ∧
     (((0 : Int) = 0 ∧
          (⟨7, 0, none, 9, 0⟩ : EntryInfo).ip ∉ ScanTcpConnect.new.set) →
        (⟨7, 0, none, 9, 0⟩ : EntryInfo).ip ∈ wC6out.scan.set)) ∧
    (((ScanTcpConnect.new.run_completions
        [⟨0, ⟨7, 0, none, 9, 0⟩⟩, ⟨0, ⟨7, 0, none, 9, 0⟩⟩]).getD
          (⟨[]⟩, [])).2.count 7 ≤ 1) := by
  constructor
  · exact claim_C6.1 ScanTcpConnect.new 0 ⟨7, 0, none, 9, 0⟩ wC6out rfl
      (by decide)
  · exact claim_C6.2 [⟨0, ⟨7, 0, none, 9, 0⟩⟩, ⟨0, ⟨7, 0, none, 9, 0⟩⟩]
      ((ScanTcpConnect.new.run_completions
        [⟨0, ⟨7, 0, none, 9, 0⟩⟩, ⟨0, ⟨7, 0, none, 9, 0⟩⟩]).getD (⟨[]⟩, []))
      7 (by decide)

theorem list_countP_isSome_replicate (n : Nat) :
    (List.replicate n (none : Option EntryInfo)).countP
      (fun e => e.isSome) = 0 := by
  induction n with
  | zero => rfl
  | succ n ih => simp [List.replicate_succ, List.countP_cons, ih]

theorem list_countP_set_some (l : List (Option EntryInfo)) (i : Nat)
    (info : EntryInfo) (h : i < l.length) (hn : l.getD i none = none) :
    (l.set i (some info)).countP (fun e => e.isSome) =
      l.countP (fun e => e.isSome) + 1 := by
  have hset := list_countP_set l i (some info) h
  rw [hn] at hset
  simpa using hset

theorem list_countP_set_none (l : List (Option EntryInfo)) (i : Nat)
    (info : EntryInfo) (h : i < l.length) (hs : l.getD i none = some info) :
    (l.set i none).countP (fun e => e.isSome) + 1 =
      l.countP (fun e => e.isSome) := by
  have hset := list_countP_set l i none h
  rw [hs] at hset
  simpa using hset

theorem free_entry_some (a : RingAllocator) (idx : Nat) (info : EntryInfo)
    (hg : a.entries.get? idx = some (some info)) :
    ∃ a2, a.free_entry idx = some a2 ∧
      a2.free_entry_idx = idx :: a.free_entry_idx ∧
      a2.entries = a.entries.set idx none := by
  unfold RingAllocator.free_entry
  rw [hg]
  refine ⟨_, rfl, ?_, ?_⟩ <;>
    · rcases info.buf with _ | ⟨bi, bd⟩
      · rfl
      · cases bd <;> rfl

theorem PoolInv_new (n rx : Nat) (tx : Option Nat) :
    PoolInv n ((RingAllocator.new n rx tx).1) := by
  refine ⟨by simp [RingAllocator.new], ?_, ?_, ?_⟩
  · simpa [RingAllocator.new] using
      List.nodup_reverse.mpr (List.nodup_range n)
  · intro i hi
    simp only [RingAllocator.new, List.mem_reverse, List.mem_range] at hi
    refine ⟨hi, ?_⟩
    simp [RingAllocator.new, list_getD_replicate]
  · simp [RingAllocator.new, list_countP_isSome_replicate]

theorem PoolInv_alloc (n : Nat) (a : RingAllocator) (info : EntryInfo)
    (i : Nat) (a2 : RingAllocator)
    (hinv : PoolInv n a) (h : a.alloc_entry info = some (i, a2)) :
    PoolInv n a2 := by
  obtain ⟨hlen, hnd, hmem, hcount⟩ := hinv
  rcases hf : a.free_entry_idx with _ | ⟨idx, rest⟩ <;>
    rw [RingAllocator.alloc_entry, hf] at h
  · exact absurd h (by simp)
  · rw [Option.some_inj] at h
    simp only [Prod.mk.injEq] at h
    obtain ⟨hi, ha⟩ := h
    subst hi ha
    obtain ⟨hilt, hinone⟩ := hmem idx (by rw [hf]; simp)
    have hnd' := hf ▸ hnd
    refine ⟨by simpa using hlen, (List.nodup_cons.mp hnd').2, ?_, ?_⟩
    · intro j hj
      have hjne : j ≠ idx := by
        intro he
        subst he
        exact (List.nodup_cons.mp hnd').1 hj
      obtain ⟨hjlt, hjnone⟩ := hmem j (by rw [hf]; exact List.mem_cons_of_mem _ hj)
      refine ⟨hjlt, ?_⟩
      rw [list_getD_set_ne _ _ _ _ _ (fun he => hjne he.symm)]
      exact hjnone
    · have hset := list_countP_set_some a.entries idx info (hlen ▸ hilt) hinone
      have hflen : a.free_entry_idx.length = rest.length + 1 := by rw [hf]; simp
      dsimp only
      rw [hset]
      omega

theorem PoolInv_free (n : Nat) (a : RingAllocator) (idx : Nat)
    (a2 : RingAllocator) (hinv : PoolInv n a)
    (h : a.free_entry idx = some a2) : PoolInv n a2 := by
  obtain ⟨hlen, hnd, hmem, hcount⟩ := hinv
  rcases hg : a.entries.get? idx with _ | e
  · rw [RingAllocator.free_entry.eq_def, hg] at h
    exact absurd h (by simp)
  · rcases e with _ | info
    · rw [RingAllocator.free_entry.eq_def, hg] at h
      exact absurd h (by simp)
    · obtain ⟨a2', h2, hfree2, hent2⟩ := free_entry_some a idx info hg
      rw [h2, Option.some_inj] at h
      subst h
      have hlt : idx < a.entries.length := list_get?_some_lt _ _ _ hg
      have hsome : a.entries.getD idx none = some info :=
        list_getD_of_get? _ _ _ _ hg
      have hnotfree : idx ∉ a.free_entry_idx := by
        intro hin
        have := (hmem idx hin).2
        rw [hsome] at this
        exact absurd this (by simp)
      refine ⟨?_, ?_, ?_, ?_⟩
      · rw [hent2]
        simpa using hlen
      · rw [hfree2]
        exact List.nodup_cons.mpr ⟨hnotfree, hnd⟩
      · intro j hj
        rw [hfree2] at hj
        rcases List.mem_cons.mp hj with he | hj2
        · subst he
          refine ⟨hlen ▸ hlt, ?_⟩
          rw [hent2, list_getD_set_self _ _ _ _ hlt]
        · have hjne : idx ≠ j := by
            intro he
            subst he
            exact hnotfree hj2
          obtain ⟨hjlt, hjnone⟩ := hmem j hj2
          refine ⟨hjlt, ?_⟩
          rw [hent2, list_getD_set_ne _ _ _ _ _ hjne]
          exact hjnone
      · have hset := list_countP_set_none a.entries idx info hlt hsome
        rw [hfree2, hent2]
        simp only [List.length_cons]
        omega

theorem PoolInv_runOps (n : Nat) (ops : List RingOp) (a a2 : RingAllocator)
    (hinv : PoolInv n a) (h : a.runOps ops = some a2) : PoolInv n a2 := by
  induction ops generalizing a with
  | nil =>
    simp only [RingAllocator.runOps] at h
    rw [Option.some_inj] at h
    subst h
    exact hinv
  | cons op ops ih =>
    simp only [RingAllocator.runOps] at h
    rcases hstep : a.applyOp op with _ | a1 <;>
      rw [hstep] at h <;> dsimp only at h
    · exact absurd h (by simp)
    · have hinv1 : PoolInv n a1 := by
        cases op with
        | alloc info =>
          simp only [RingAllocator.applyOp] at hstep
          rcases halloc : a.alloc_entry info with _ | ⟨i, a1'⟩ <;>
            rw [halloc] at hstep <;> simp only [Option.map] at hstep
          · exact absurd hstep (by simp)
          · rw [Option.some_inj] at hstep
            subst hstep
            exact PoolInv_alloc n a info i a1' hinv halloc
        | free idx =>
          simp only [RingAllocator.applyOp] at hstep
          exact PoolInv_free n a idx a1 hinv hstep
      exact ih a1 hinv1 h

/-- Claim C1: starting from a freshly constructed `RingAllocator` of
any capacity, after every non-panicking sequence of `alloc_entry` and
`free_entry` operations, `allocated_entry_count` plus the free-list
length equals the capacity; in particular the free-list length never
exceeds the capacity, every allocated index is absent from the
free-list, and the number of `Some` entries equals capacity minus the
free-list length. -/
theorem claim_C1 (n rx : Nat) (tx : Option Nat) (ops : List RingOp)
    (a : RingAllocator)
    (h : ((RingAllocator.new n rx tx).1).runOps ops = some a) :
    a.allocated_entry_count + a.free_entry_idx.length = n ∧
    a.free_entry_idx.length ≤ n ∧
    (∀ i < n, a.entries.getD i none ≠ none → i ∉ a.free_entry_idx) ∧
    a.entries.countP (fun e => e.isSome) = n - a.free_entry_idx.length := by
  obtain ⟨hlen, hnd, hmem, hcount⟩ :=
    PoolInv_runOps n ops _ a (PoolInv_new n rx tx) h
  have hfle : a.free_entry_idx.length ≤ n := by omega
  refine ⟨?_, hfle, ?_, by omega⟩
  · simp only [RingAllocator.allocated_entry_count, hlen]
    omega
  · intro i _ hne hmemf
    exact hne (hmem i hmemf).2

/-- Concrete instance of claim C1: a 2-slot pool after an allocation,
a free of the returned slot, and a second allocation. -/
theorem claim_C1_witness :
    wC1a.allocated_entry_count + wC1a.free_entry_idx.length = 2 ∧
    wC1a.free_entry_idx.length ≤ 2 ∧
    (∀ i < 2, wC1a.entries.getD i none ≠ none →
      i ∉ wC1a.free_entry_idx) ∧
    wC1a.entries.countP (fun e => e.isSome) =
      2 - wC1a.free_entry_idx.length :=
  claim_C1 2 4 none wC1ops wC1a (by decide)

end IoUringScanner
